import Mathlib

/-!
Shallow embedding of the glt work-session tracker (src/app.rs, src/lib.rs).

Modelling conventions:
- Rust `u32` fields are modelled as `Nat` and `i32` as `Int`; the values
  handled by the program (hours, minutes, days, small counters) stay far
  below the wrap-around bounds, and the one place where a cast can clamp
  (`f32 as i32` / `f32 as u32`, which saturate in Rust) is modelled
  explicitly with saturation.
- Rust `f32` fractional-hour arithmetic is modelled over `ℚ` at two
  levels of fidelity: `rnd32` implements IEEE-754 binary32
  round-to-nearest-even, and the `...32` conversion functions round after
  every arithmetic step exactly as the compiled code does; the unrounded
  `timeToFrac`/`timeSub` variants are exact-arithmetic idealizations used
  only for conclusions that do not depend on rounding.  Every concrete
  value used in a counterexample below is a dyadic rational that binary32
  represents exactly (and the two models provably agree there), so the
  refutations transfer to the compiled program.
- The file-backed store (`working.json`, the flat `working/` day-archive
  directory, the permanent `year/month` tree) is modelled as an explicit
  `Store` value; each operation of `App` becomes a pure function
  `Store → Outcome α` where `Outcome` records the result, the typed error
  (with the unchanged store), or a crash (an out-of-bounds index / panic).
-/

/-- Wall-clock time of day, `pub struct Time(pub u32, pub u32)` in app.rs. -/
structure Time where
  hour : Nat
  minute : Nat
deriving DecidableEq, Repr

/-- Signed hour/minute difference, `pub struct TimeDiff(pub i32, pub i32)`. -/
structure TimeDiff where
  hours : Int
  minutes : Int
deriving DecidableEq, Repr

/-- Calendar date, `pub struct Date(pub i32, pub u32, pub u32)`. -/
structure Date where
  year : Int
  month : Nat
  day : Nat
deriving DecidableEq, Repr

/-- One attendee, `pub struct Participant { commit_time, name }`. -/
structure Participant where
  commit_time : Time
  name : String
deriving DecidableEq, Repr

/-- One session record, `pub struct DayCommit` in app.rs. -/
structure DayCommit where
  date : Date
  start_time : Time
  end_time : Option Time
  message : Option String
  participants : List Participant
deriving DecidableEq, Repr

/-- Truncation of a rational toward zero, the semantics of Rust float-to-int
`as` casts (before saturation).  `q.den` is positive, so truncated integer
division of the numerator by the denominator truncates the value of `q`
toward zero. -/
def ratTrunc (q : ℚ) : ℤ := q.num.tdiv q.den

/-- Saturation of an integer into the i32 range. -/
def clampI32 (x : ℤ) : ℤ := max (-2147483648) (min 2147483647 x)

/-- Rust `f as i32`: truncate toward zero, saturating at the i32 bounds. -/
def ratAsI32 (q : ℚ) : ℤ := clampI32 (ratTrunc q)

/-- Rust `f as u32`: negative values (and NaN) go to 0, positive values are
truncated toward zero and saturate at `u32::MAX`. -/
def ratAsU32 (q : ℚ) : ℕ :=
  if q ≤ 0 then 0 else min 4294967295 (ratTrunc q).toNat

/-- Rust `%` on `i32` is the truncated remainder (`Int.tmod`): the sign of
the result follows the dividend. -/
def rustRem (a b : ℤ) : ℤ := a.tmod b

/-- Exact-rational idealization of `impl From<Time> for f32`
(`(t.0 as f32) + ((t.1 as f32) / 60f32)` with the roundings dropped).
It is used only where a conclusion does not depend on rounding, either
because every intermediate value is exactly representable in binary32
(the dyadic counterexample inputs) or because only signs and counts
matter; `timeToFrac32` below keeps the roundings. -/
def timeToFrac (t : Time) : ℚ := (t.hour : ℚ) + (t.minute : ℚ) / 60

/-- `impl From<TimeDiff> for f32`: `(t.0 as f32) + ((t.1 as f32) / 60f32)`. -/
def timeDiffToFrac (d : TimeDiff) : ℚ := (d.hours : ℚ) + (d.minutes : ℚ) / 60

/-- `impl From<f32> for Time`: `Time(f as u32, ((f * 60f32) as u32) % 60)`. -/
def timeFromFrac (f : ℚ) : Time := ⟨ratAsU32 f, ratAsU32 (f * 60) % 60⟩

/-- Exact-rational idealization of `impl From<f32> for TimeDiff`
(`TimeDiff(f as i32, ((f * 60f32) as i32) % 60)` with the rounding of
the product `f * 60f32` dropped); `timeDiffFromFrac32` below keeps it. -/
def timeDiffFromFrac (f : ℚ) : TimeDiff :=
  ⟨ratAsI32 f, rustRem (ratAsI32 (f * 60)) 60⟩

/-- Exact-rational idealization of `impl Sub for Time`: convert both
operands to fractional hours, subtract, convert the difference back.
It coincides with the rounded model `timeSub32` whenever every
intermediate value is exactly representable in binary32, as at the
dyadic counterexample inputs below. -/
def timeSub (t1 t2 : Time) : TimeDiff :=
  timeDiffFromFrac (timeToFrac t1 - timeToFrac t2)

/-- Total minutes of a `Time`, the integer that `timeToFrac` divides by 60. -/
def timeMinutes (t : Time) : ℤ := 60 * (t.hour : ℤ) + (t.minute : ℤ)

lemma ratTrunc_nonneg {q : ℚ} (h : 0 ≤ q) : ratTrunc q = ⌊q⌋ := by
  unfold ratTrunc
  rw [Rat.floor_def, Int.tdiv_eq_ediv (Rat.num_nonneg.mpr h) (by positivity)]

lemma ratTrunc_neg (q : ℚ) : ratTrunc (-q) = -ratTrunc q := by
  unfold ratTrunc
  rw [Rat.neg_num, Rat.neg_den, Int.neg_tdiv]

lemma ratTrunc_intCast (n : ℤ) : ratTrunc (n : ℚ) = n := by
  unfold ratTrunc
  rw [Rat.num_intCast, Rat.den_intCast]
  exact_mod_cast Int.tdiv_one n

lemma ratTrunc_intCast_div60 (n : ℤ) : ratTrunc ((n : ℚ) / 60) = n.tdiv 60 := by
  rcases le_or_lt 0 n with h | h
  · rw [ratTrunc_nonneg (by positivity),
      show ((60 : ℚ)) = ((60 : ℕ) : ℚ) by norm_num,
      Rat.floor_intCast_div_natCast n 60,
      Int.tdiv_eq_ediv h (by norm_num)]
    rfl
  · have h2 : (0 : ℤ) ≤ -n := by omega
    have h1 : ((n : ℚ) / 60) = -(((-n : ℤ) : ℚ) / 60) := by push_cast; ring
    have h3 : (0 : ℚ) ≤ ((-n : ℤ) : ℚ) / 60 := by
      apply div_nonneg _ (by norm_num)
      exact_mod_cast h2
    rw [h1, ratTrunc_neg, ratTrunc_nonneg h3,
      show ((60 : ℚ)) = ((60 : ℕ) : ℚ) by norm_num,
      Rat.floor_intCast_div_natCast (-n) 60,
      show ((60 : ℕ) : ℤ) = (60 : ℤ) from rfl,
      ← Int.tdiv_eq_ediv h2 (by norm_num), ← Int.neg_tdiv, neg_neg]

lemma clampI32_eq_self {x : ℤ} (h1 : -2147483648 ≤ x) (h2 : x ≤ 2147483647) :
    clampI32 x = x := by
  unfold clampI32; omega

/-- Closed form of the exact-arithmetic idealization `timeSub` in terms
of the total-minute difference: without rounding, the fractional-hour
round trip collapses to a truncated division and a truncated remainder
of the minute difference. -/
lemma timeSub_eval (t1 t2 : Time) :
    timeSub t1 t2 =
      ⟨clampI32 ((timeMinutes t1 - timeMinutes t2).tdiv 60),
       rustRem (clampI32 (timeMinutes t1 - timeMinutes t2)) 60⟩ := by
  set n : ℤ := timeMinutes t1 - timeMinutes t2 with hn
  have hq : timeToFrac t1 - timeToFrac t2 = (n : ℚ) / 60 := by
    rw [hn]
    unfold timeToFrac timeMinutes
    push_cast
    ring
  unfold timeSub timeDiffFromFrac ratAsI32
  rw [hq]
  have h60 : ((n : ℚ) / 60) * 60 = (n : ℚ) := by
    field_simp
  rw [h60, ratTrunc_intCast, ratTrunc_intCast_div60]

lemma timeSub_sample_neg : timeSub ⟨9, 0⟩ ⟨9, 30⟩ = ⟨0, -30⟩ := by
  rw [timeSub_eval]; decide

lemma timeSub_sample_pos : timeSub ⟨18, 15⟩ ⟨9, 30⟩ = ⟨8, 45⟩ := by
  rw [timeSub_eval]; decide

/-- Typed failures of the core operations (error.rs `ErrorKind`); only the
two kinds the session store raises are relevant here. -/
inductive GErr where
  | alreadyInitialized
  | notInitialized
deriving DecidableEq, Repr

/-- Filename in the flat day-archive directory `working/`: either
`<day>.json` or `<day>_<i>.json` with `i ≥ 1` (commit_a_day builds exactly
these two shapes, and their string renderings never collide since a day
number contains no underscore). -/
inductive FName where
  | base : Nat → FName
  | suffixed : Nat → Nat → FName
deriving DecidableEq, Repr

/-- The candidate filename tried at probe step `k` for day `day`:
step 0 is `<day>.json`, step `k ≥ 1` is `<day>_<k>.json`. -/
def nameAt (day : Nat) : Nat → FName
  | 0 => .base day
  | Nat.succ k => .suffixed day (k + 1)

/-- The `while path.exists()` probe loop of `commit_a_day`: starting from
candidate index `k`, return the first index whose name is unused.  The
Rust loop is unbounded; `fuel` is an upper bound on the number of
membership tests, and `probeIdx` supplies enough fuel for the loop to
always find a free name. -/
def probeAux (day : Nat) (used : List FName) : Nat → Nat → Nat
  | k, 0 => k
  | k, Nat.succ fuel => if nameAt day k ∈ used then probeAux day used (k + 1) fuel else k

/-- Index chosen by the filename probe of `commit_a_day`. -/
def probeIdx (day : Nat) (used : List FName) : Nat :=
  probeAux day used 0 (used.length + 1)

/-- Filename chosen by `commit_a_day` for a record of day-of-month `day`
when the day-archive directory already holds the names `used`. -/
def probe (day : Nat) (used : List FName) : FName :=
  nameAt day (probeIdx day used)

/-- State of one data root: the optional open record `working.json`, the
day-archive directory `working/` (`none` when the directory does not
exist) as an association of filenames to decoded records, and the
permanent `year/month` tree as a flat list of (year, month, filename,
record) entries. -/
structure Store where
  working : Option DayCommit
  workingDir : Option (List (FName × DayCommit))
  monthly : List (Int × Nat × FName × DayCommit)
deriving DecidableEq, Repr

/-- Result of one core operation on a store: a value with the successor
state, a typed error with the (unchanged) state, or a crash of the
process (an out-of-bounds index). -/
inductive Outcome (α : Type) where
  | ok : α → Store → Outcome α
  | err : GErr → Store → Outcome α
  | crash : Outcome α
deriving DecidableEq, Repr

/-- Store left behind by an outcome, `none` when the process crashed. -/
def Outcome.state {α : Type} : Outcome α → Option Store
  | .ok _ s => some s
  | .err _ s => some s
  | .crash => none

/-- Whether the outcome is the typed `NotInitialized` failure. -/
def Outcome.isNotInitErr {α : Type} : Outcome α → Bool
  | .err .notInitialized _ => true
  | _ => false

/-- Whether the outcome is a success. -/
def Outcome.isOk {α : Type} : Outcome α → Bool
  | .ok _ _ => true
  | _ => false

/-- Entries currently present in the day-archive directory (empty when the
directory is absent). -/
def Store.entries (s : Store) : List (FName × DayCommit) :=
  s.workingDir.getD []

/-- A fresh data root: no `working.json`, no `working/` directory. -/
def initStore : Store := ⟨none, none, []⟩

/-- `App::create_working_file` (begin): fails `AlreadyInitialized` when
`working.json` exists, otherwise persists a fresh record with no end time,
no message and no participants, and returns it. -/
def createWorkingFile (date : Date) (time : Time) (s : Store) : Outcome DayCommit :=
  match s.working with
  | some _ => .err .alreadyInitialized s
  | none =>
      let day_commit : DayCommit :=
        { date := date, start_time := time, end_time := none,
          message := none, participants := [] }
      .ok day_commit { s with working := some day_commit }

/-- `App::get_working_commit` (read/status): fails `NotInitialized` when
`working.json` does not exist. -/
def getWorkingCommit (s : Store) : Outcome DayCommit :=
  match s.working with
  | none => .err .notInitialized s
  | some dc => .ok dc s

/-- `App::edit_working_commit` (mutate): load the open record, apply the
transform, persist and return the result; fails `NotInitialized` when
`working.json` does not exist. -/
def editWorkingCommit (f : DayCommit → DayCommit) (s : Store) : Outcome DayCommit :=
  match s.working with
  | none => .err .notInitialized s
  | some dc =>
      let dc' := f dc
      .ok dc' { s with working := some dc' }

/-- `App::remove_working_commit` (discard/reset): deletes `working.json`;
fails `NotInitialized` when it does not exist. -/
def removeWorkingCommit (s : Store) : Outcome Unit :=
  match s.working with
  | none => .err .notInitialized s
  | some _ => .ok () { s with working := none }

/-- The record as sealed by `commit_a_day`: end time and closing message
are filled in. -/
def finalizeRecord (dc : DayCommit) (endT : Time) (msg : String) : DayCommit :=
  { dc with end_time := some endT, message := some msg }

/-- The archive-write step of `commit_a_day`: `create_dir_all("working")`,
probe for an unused filename derived from the record's day-of-month, and
write the sealed record there.  `working.json` is untouched by this step. -/
def commitWrite (endT : Time) (msg : String) (dc : DayCommit) (s : Store) :
    FName × Store :=
  let entries := s.entries
  let fname := probe dc.date.day (entries.map Prod.fst)
  (fname,
   { s with workingDir := some (entries ++ [(fname, finalizeRecord dc endT msg)]) })

/-- `App::commit_a_day` (finalize): read the open record (`NotInitialized`
when absent), seal it, write it into the day-archive directory, and only
then delete `working.json`. -/
def commitADay (endT : Time) (msg : String) (s : Store) : Outcome DayCommit :=
  match s.working with
  | none => .err .notInitialized s
  | some dc =>
      let s1 := (commitWrite endT msg dc s).2
      .ok (finalizeRecord dc endT msg) { s1 with working := none }

/-- The closure body of `add` in lib.rs: for each requested name, build a
participant stamped `now` and append it unless the *cloned original*
participant list (`cloned_commit`) already contains the name; the names
actually appended are accumulated in `added`.  Returns the mutated record
together with `added`. -/
def addTransform (now : Time) (names : List String) (dc : DayCommit) :
    DayCommit × List String :=
  names.foldl
    (fun acc p =>
      if dc.participants.any (fun q => q.name == p) then acc
      else ({ acc.1 with participants := acc.1.participants ++ [⟨now, p⟩] },
            acc.2 ++ [p]))
    (dc, [])

/-- `add` in lib.rs: `edit_working_commit` with the closure above,
returning the list of names actually added. -/
def addOp (now : Time) (names : List String) (s : Store) : Outcome (List String) :=
  match s.working with
  | none => .err .notInitialized s
  | some dc =>
      let r := addTransform now names dc
      .ok r.2 { s with working := some r.1 }

/-- The closure body of `rm` in lib.rs: retain only participants whose
name matches none of the requested names. -/
def rmTransform (names : List String) (dc : DayCommit) : DayCommit :=
  { dc with
    participants :=
      names.foldl (fun ps p => ps.filter (fun dp => dp.name ≠ p)) dc.participants }

/-- `rm` in lib.rs: `edit_working_commit` with the retain closure. -/
def rmOp (names : List String) (s : Store) : Outcome Unit :=
  match s.working with
  | none => .err .notInitialized s
  | some dc => .ok () { s with working := some (rmTransform names dc) }

/-- `App::push_a_month` (archive month): list the day-archive directory
(`NotInitialized` when the directory is absent), read the *first* listed
record to pick the destination `year/month`, then copy every entry there
and delete the source.  When the directory exists but is empty the source
indexes `dir[0]`, which is out of bounds: the process panics. -/
def pushAMonth (s : Store) : Outcome Unit :=
  match s.workingDir with
  | none => .err .notInitialized s
  | some [] => .crash
  | some (first :: rest) =>
      let dest := (first.2.date.year, first.2.date.month)
      .ok ()
        { s with
          workingDir := some [],
          monthly :=
            s.monthly ++
              (first :: rest).map (fun e => (dest.1, dest.2, e.1, e.2)) }

/-- The per-participant record map of `log_message` in lib.rs:
`HashMap<String, (u32, f32)>` modelled as a total function with the
`or_insert((0, 0))` default. -/
def PMap : Type := String → Nat × ℚ

/-- Pointwise update of the participant map, the effect of writing through
the `entry` API. -/
def pmUpdate (m : PMap) (k : String) (v : Nat × ℚ) : PMap :=
  fun k' => if k' = k then v else m k'

/-- The body of the `for p in &day_commit.participants` loop of
`log_message`: the day counter is incremented for every appearance of the
participant, while the hour total only grows when the record has an end
time (by the fractional-hour value of `end_time - p.commit_time`). -/
def recStep (dc : DayCommit) (m : PMap) : PMap :=
  dc.participants.foldl
    (fun m p =>
      let prev := m p.name
      pmUpdate m p.name
        (prev.1 + 1,
         match dc.end_time with
         | some e => prev.2 + timeDiffToFrac (timeSub e p.commit_time)
         | none => prev.2))
    m

/-- The `participants_record` map accumulated by `log_message` over a
month of records. -/
def perParticipant (cs : List DayCommit) : PMap :=
  cs.foldl (fun m dc => recStep dc m) (fun _ => (0, 0))

/-- Number of appearances of `name` in a record's participant list. -/
def occCount (name : String) (dc : DayCommit) : Nat :=
  (dc.participants.filter (fun p => p.name == name)).length

/-- The hour contribution of a record to `name`: zero when the record has
no end time, otherwise the summed fractional-hour differences of
`end_time - joinedAt` over the appearances of `name`. -/
def hourContrib (name : String) (dc : DayCommit) : ℚ :=
  match dc.end_time with
  | some e =>
      ((dc.participants.filter (fun p => p.name == name)).map
        (fun p => timeDiffToFrac (timeSub e p.commit_time))).sum
  | none => 0

lemma nameAt_inj (day : Nat) : Function.Injective (nameAt day) := by
  intro a b h
  cases a with
  | zero =>
      cases b with
      | zero => rfl
      | succ b => simp [nameAt] at h
  | succ a =>
      cases b with
      | zero => simp [nameAt] at h
      | succ b =>
          simp [nameAt] at h
          omega

lemma probeAux_spec (day : Nat) (used : List FName) :
    ∀ (fuel k : Nat), (∃ j, j < fuel ∧ nameAt day (k + j) ∉ used) →
      nameAt day (probeAux day used k fuel) ∉ used ∧
      k ≤ probeAux day used k fuel ∧
      ∀ i, k ≤ i → i < probeAux day used k fuel → nameAt day i ∈ used := by
  intro fuel
  induction fuel with
  | zero =>
      intro k h
      obtain ⟨j, hj, _⟩ := h
      omega
  | succ fuel ih =>
      intro k h
      by_cases hmem : nameAt day k ∈ used
      · simp only [probeAux, if_pos hmem]
        obtain ⟨j, hj, hfree⟩ := h
        have hj0 : j ≠ 0 := by
          rintro rfl
          simp only [Nat.add_zero] at hfree
          exact hfree hmem
        obtain ⟨j', rfl⟩ := Nat.exists_eq_succ_of_ne_zero hj0
        have h' : ∃ i, i < fuel ∧ nameAt day (k + 1 + i) ∉ used := by
          refine ⟨j', by omega, ?_⟩
          have hrw : k + 1 + j' = k + (j' + 1) := by omega
          rw [hrw]
          exact hfree
        obtain ⟨hfree', hle', hmin'⟩ := ih (k + 1) h'
        refine ⟨hfree', by omega, ?_⟩
        intro i hki hi
        rcases Nat.eq_or_lt_of_le hki with rfl | hlt
        · exact hmem
        · exact hmin' i hlt hi
      · simp only [probeAux, if_neg hmem]
        exact ⟨hmem, Nat.le_refl _, by intro i h1 h2; omega⟩

lemma probe_exists_free (day : Nat) (used : List FName) (k : Nat) :
    ∃ j, j < used.length + 1 ∧ nameAt day (k + j) ∉ used := by
  by_contra hcon
  push_neg at hcon
  have hinj : Function.Injective (fun j : ℕ => nameAt day (k + j)) := by
    intro a b h
    have h2 := nameAt_inj day h
    omega
  have hsub :
      Finset.image (fun j : ℕ => nameAt day (k + j))
        (Finset.range (used.length + 1)) ⊆ used.toFinset := by
    intro x hx
    rw [Finset.mem_image] at hx
    obtain ⟨j, hj, rfl⟩ := hx
    rw [List.mem_toFinset]
    exact hcon j (Finset.mem_range.mp hj)
  have hcard := Finset.card_le_card hsub
  rw [Finset.card_image_of_injective _ hinj, Finset.card_range] at hcard
  have hfin := used.toFinset_card_le
  omega

/-- The probe of `commit_a_day` always lands on a name that is not in the
directory, and it is the first such candidate in probe order. -/
lemma probe_spec (day : Nat) (used : List FName) :
    probe day used ∉ used ∧ ∀ i, i < probeIdx day used → nameAt day i ∈ used := by
  obtain ⟨hfree, _, hmin⟩ :=
    probeAux_spec day used (used.length + 1) 0 (probe_exists_free day used 0)
  exact ⟨hfree, fun i hi => hmin i (Nat.zero_le i) hi⟩

/-- Names of the requested list that are not already participants (by
name) of the original record: exactly those that the `add` closure
appends. -/
def freshNames (names : List String) (dc : DayCommit) : List String :=
  names.filter (fun p => !(dc.participants.any (fun q => q.name == p)))

lemma addTransform_go (now : Time) (dc : DayCommit) :
    ∀ (names : List String) (acc : DayCommit × List String),
      names.foldl
        (fun acc p =>
          if dc.participants.any (fun q => q.name == p) then acc
          else ({ acc.1 with participants := acc.1.participants ++ [⟨now, p⟩] },
                acc.2 ++ [p]))
        acc =
      ({ acc.1 with
          participants :=
            acc.1.participants ++ (freshNames names dc).map (fun p => ⟨now, p⟩) },
       acc.2 ++ freshNames names dc) := by
  intro names
  induction names with
  | nil => intro acc; simp [freshNames]
  | cons p names ih =>
      intro acc
      rw [List.foldl_cons]
      cases hp : dc.participants.any (fun q => q.name == p) with
      | true =>
          rw [if_pos rfl, ih]
          simp [freshNames, List.filter_cons, hp]
      | false =>
          rw [if_neg (by simp), ih]
          simp [freshNames, List.filter_cons, hp, List.append_assoc]

/-- Closed form of the `add` closure: the record keeps its other fields
and appends one participant stamped `now` for every requested name not
already present in the *original* record; the returned `added` list is
exactly those names, duplicates included. -/
lemma addTransform_eq (now : Time) (names : List String) (dc : DayCommit) :
    addTransform now names dc =
      ({ dc with
          participants :=
            dc.participants ++ (freshNames names dc).map (fun p => ⟨now, p⟩) },
       freshNames names dc) := by
  unfold addTransform
  rw [addTransform_go]
  simp

lemma pmUpdate_same (m : PMap) (k : String) (v : Nat × ℚ) :
    pmUpdate m k v k = v := by
  simp [pmUpdate]

lemma pmUpdate_other (m : PMap) (k k' : String) (v : Nat × ℚ) (h : k' ≠ k) :
    pmUpdate m k v k' = m k' := by
  simp [pmUpdate, h]

lemma recStep_go (dc : DayCommit) (name : String) :
    ∀ (ps : List Participant) (m : PMap),
      (ps.foldl
        (fun m p =>
          let prev := m p.name
          pmUpdate m p.name
            (prev.1 + 1,
             match dc.end_time with
             | some e => prev.2 + timeDiffToFrac (timeSub e p.commit_time)
             | none => prev.2))
        m) name =
      ((m name).1 + (ps.filter (fun p => p.name == name)).length,
       (m name).2 +
         (match dc.end_time with
          | some e =>
              ((ps.filter (fun p => p.name == name)).map
                (fun p => timeDiffToFrac (timeSub e p.commit_time))).sum
          | none => 0)) := by
  intro ps
  induction ps with
  | nil =>
      intro m
      cases dc.end_time <;> simp
  | cons p ps ih =>
      intro m
      rw [List.foldl_cons, ih]
      by_cases hname : p.name = name
      · subst hname
        rw [List.filter_cons, if_pos (by simp)]
        simp only [pmUpdate_same]
        cases he : dc.end_time with
        | none =>
            simp only [Prod.mk.injEq, List.length_cons]
            constructor
            · omega
            · simp
        | some e =>
            simp only [Prod.mk.injEq, List.length_cons, List.map_cons, List.sum_cons]
            constructor
            · omega
            · ring
      · have hne : name ≠ p.name := fun h => hname h.symm
        rw [List.filter_cons, if_neg (by simp [hname]),
          pmUpdate_other m p.name name _ hne]

/-- Lookup form of one record's aggregation step: every appearance of
`name` adds one day, and adds hours exactly when the record has an end
time. -/
lemma recStep_apply (dc : DayCommit) (m : PMap) (name : String) :
    recStep dc m name =
      ((m name).1 + occCount name dc, (m name).2 + hourContrib name dc) := by
  unfold recStep occCount hourContrib
  exact recStep_go dc name dc.participants m

lemma perParticipant_go (name : String) :
    ∀ (cs : List DayCommit) (m : PMap),
      (cs.foldl (fun m dc => recStep dc m) m) name =
        ((m name).1 + (cs.map (occCount name)).sum,
         (m name).2 + (cs.map (hourContrib name)).sum) := by
  intro cs
  induction cs with
  | nil => intro m; simp
  | cons dc cs ih =>
      intro m
      rw [List.foldl_cons, ih, recStep_apply]
      simp only [List.map_cons, List.sum_cons, Prod.mk.injEq]
      constructor
      · omega
      · ring

/-- Closed form of the `participants_record` map of `log_message`. -/
lemma perParticipant_apply (cs : List DayCommit) (name : String) :
    perParticipant cs name =
      ((cs.map (occCount name)).sum, (cs.map (hourContrib name)).sum) := by
  unfold perParticipant
  rw [perParticipant_go]
  simp

/-- The invariant claimed for reachable stores: the open record has
neither end time nor message, and every day-archive record has both. -/
def StoreInv (s : Store) : Prop :=
  (∀ dc, s.working = some dc → dc.end_time = none ∧ dc.message = none) ∧
  (∀ e ∈ s.entries, e.2.end_time.isSome ∧ e.2.message.isSome)

/-- Stores reachable from a fresh data root by the public operations:
begin, add participants, remove participants, finalize, discard.  A step
is taken whenever the operation leaves a store behind (success or typed
error); a crashed process leaves no store. -/
inductive Reachable : Store → Prop where
  | init : Reachable initStore
  | beginStep {s s' : Store} (d : Date) (t : Time) :
      Reachable s → (createWorkingFile d t s).state = some s' → Reachable s'
  | addStep {s s' : Store} (now : Time) (names : List String) :
      Reachable s → (addOp now names s).state = some s' → Reachable s'
  | rmStep {s s' : Store} (names : List String) :
      Reachable s → (rmOp names s).state = some s' → Reachable s'
  | commitStep {s s' : Store} (endT : Time) (msg : String) :
      Reachable s → (commitADay endT msg s).state = some s' → Reachable s'
  | resetStep {s s' : Store} :
      Reachable s → (removeWorkingCommit s).state = some s' → Reachable s'

lemma addTransform_fst_fields (now : Time) (names : List String) (dc : DayCommit) :
    (addTransform now names dc).1.end_time = dc.end_time ∧
    (addTransform now names dc).1.message = dc.message := by
  rw [addTransform_eq]
  exact ⟨rfl, rfl⟩

lemma inv_step_begin {s s' : Store} (d : Date) (t : Time) (ih : StoreInv s)
    (hst : (createWorkingFile d t s).state = some s') : StoreInv s' := by
  cases hw : s.working with
  | some dc =>
      simp only [createWorkingFile, hw, Outcome.state, Option.some.injEq] at hst
      exact hst ▸ ih
  | none =>
      simp only [createWorkingFile, hw, Outcome.state, Option.some.injEq] at hst
      subst hst
      constructor
      · intro dc hdc
        simp only [Option.some.injEq] at hdc
        subst hdc
        exact ⟨rfl, rfl⟩
      · intro e he
        exact ih.2 e (by simpa [Store.entries] using he)

lemma inv_step_add {s s' : Store} (now : Time) (names : List String)
    (ih : StoreInv s) (hst : (addOp now names s).state = some s') : StoreInv s' := by
  cases hw : s.working with
  | none =>
      simp only [addOp, hw, Outcome.state, Option.some.injEq] at hst
      exact hst ▸ ih
  | some dc =>
      simp only [addOp, hw, Outcome.state, Option.some.injEq] at hst
      subst hst
      constructor
      · intro dc' hdc
        simp only [Option.some.injEq] at hdc
        subst hdc
        obtain ⟨he, hm⟩ := addTransform_fst_fields now names dc
        obtain ⟨he0, hm0⟩ := ih.1 dc hw
        exact ⟨he.trans he0, hm.trans hm0⟩
      · intro e he
        exact ih.2 e (by simpa [Store.entries] using he)

lemma inv_step_rm {s s' : Store} (names : List String)
    (ih : StoreInv s) (hst : (rmOp names s).state = some s') : StoreInv s' := by
  cases hw : s.working with
  | none =>
      simp only [rmOp, hw, Outcome.state, Option.some.injEq] at hst
      exact hst ▸ ih
  | some dc =>
      simp only [rmOp, hw, Outcome.state, Option.some.injEq] at hst
      subst hst
      constructor
      · intro dc' hdc
        simp only [Option.some.injEq] at hdc
        subst hdc
        exact ih.1 dc hw
      · intro e he
        exact ih.2 e (by simpa [Store.entries] using he)

lemma inv_step_commit {s s' : Store} (endT : Time) (msg : String)
    (ih : StoreInv s) (hst : (commitADay endT msg s).state = some s') : StoreInv s' := by
  cases hw : s.working with
  | none =>
      simp only [commitADay, hw, Outcome.state, Option.some.injEq] at hst
      exact hst ▸ ih
  | some dc =>
      simp only [commitADay, commitWrite, hw, Outcome.state, Option.some.injEq] at hst
      subst hst
      constructor
      · intro dc' hdc
        simp at hdc
      · intro e he
        simp only [Store.entries, Option.getD] at he
        rw [List.mem_append] at he
        rcases he with he | he
        · exact ih.2 e he
        · simp only [List.mem_singleton] at he
          subst he
          exact ⟨rfl, rfl⟩

lemma inv_step_reset {s s' : Store}
    (ih : StoreInv s) (hst : (removeWorkingCommit s).state = some s') : StoreInv s' := by
  cases hw : s.working with
  | none =>
      simp only [removeWorkingCommit, hw, Outcome.state, Option.some.injEq] at hst
      exact hst ▸ ih
  | some dc =>
      simp only [removeWorkingCommit, hw, Outcome.state, Option.some.injEq] at hst
      subst hst
      constructor
      · intro dc' hdc
        simp at hdc
      · intro e he
        exact ih.2 e (by simpa [Store.entries] using he)

/-- Difference of the two fractional-hour projections, as a single
integer ratio: the f32 value `self_f - rhs_f` of `impl Sub for Time`. -/
lemma timeToFrac_sub (t1 t2 : Time) :
    timeToFrac t1 - timeToFrac t2 = ((timeMinutes t1 - timeMinutes t2 : ℤ) : ℚ) / 60 := by
  unfold timeToFrac timeMinutes
  push_cast
  ring

/-- Sample date used by the concrete witnesses: day-of-month 10. -/
def sampleDate : Date := ⟨2018, 4, 10⟩

/-- Sample freshly begun record (as created by `create_working_file`). -/
def sampleCommit : DayCommit := ⟨sampleDate, ⟨9, 0⟩, none, none, []⟩

/-- C1 (counterexample): with no participant named Alice present, a single
`add(["Alice", "Alice"])` call appends TWO participants named Alice and
returns an added list naming Alice twice, because the duplicate check of
the closure consults only the cloned original record.  The claim predicts
one participant and one added entry. -/
theorem claim_C1_counterexample :
    addOp ⟨10, 0⟩ ["Alice", "Alice"] ⟨some sampleCommit, none, []⟩ =
      .ok ["Alice", "Alice"]
        ⟨some ⟨sampleDate, ⟨9, 0⟩, none, none,
            [⟨⟨10, 0⟩, "Alice"⟩, ⟨⟨10, 0⟩, "Alice"⟩]⟩, none, []⟩ ∧
    ((addTransform ⟨10, 0⟩ ["Alice", "Alice"] sampleCommit).1.participants.filter
        (fun p => p.name == "Alice")).length = 2 ∧
    (addTransform ⟨10, 0⟩ ["Alice", "Alice"] sampleCommit).2.count "Alice" = 2 := by
  refine ⟨by decide, by decide, by decide⟩

/-- C1 (amended): `add` skips exactly the requested names that are already
participants of the record as it was at the start of the call; every other
occurrence in the requested list — duplicates included — is appended as a
new participant stamped `now` and reported in the added list. -/
theorem claim_C1_amended (now : Time) (names : List String) (dc : DayCommit)
    (s : Store) (h : s.working = some dc) :
    addOp now names s =
      .ok (freshNames names dc)
        { s with
          working := some
            { dc with
              participants :=
                dc.participants ++ (freshNames names dc).map (fun p => ⟨now, p⟩) } } := by
  simp only [addOp, h, addTransform_eq]

/-- C1 (witness): the amended statement evaluated on the Alice example. -/
theorem claim_C1_amended_witness :
    (⟨some sampleCommit, none, []⟩ : Store).working = some sampleCommit ∧
    addOp ⟨10, 0⟩ ["Alice", "Alice"] ⟨some sampleCommit, none, []⟩ =
      .ok ["Alice", "Alice"]
        ⟨some ⟨sampleDate, ⟨9, 0⟩, none, none,
            [⟨⟨10, 0⟩, "Alice"⟩, ⟨⟨10, 0⟩, "Alice"⟩]⟩, none, []⟩ := by
  refine ⟨rfl, ?_⟩
  rw [claim_C1_amended ⟨10, 0⟩ ["Alice", "Alice"] sampleCommit _ rfl]
  decide

/-- Sample record lacking an end time but listing Alice as participant. -/
def noEndRecord : DayCommit :=
  ⟨sampleDate, ⟨9, 0⟩, none, none, [⟨⟨9, 0⟩, "Alice"⟩]⟩

/-- C2 (counterexample): over a single record with `endTime` absent,
Alice's aggregated day count is 1 (and her hour total 0): the day counter
of `log_message` increments even for records without an end time, where
the claim predicts no contribution at all. -/
theorem claim_C2_counterexample :
    perParticipant [noEndRecord] "Alice" = (1, 0) ∧ (1 : ℕ) ≠ 0 := by
  constructor
  · rw [perParticipant_apply]
    simp [occCount, hourContrib, noEndRecord]
  · decide

/-- C2 (amended): for every record list and name, the aggregated day count
is the number of appearances of the name across ALL records (with or
without an end time), while the aggregated hour total only collects the
`endTime - joinedAt` fractional hours of records whose end time is
present. -/
theorem claim_C2_amended (cs : List DayCommit) (name : String) :
    perParticipant cs name =
      ((cs.map (occCount name)).sum, (cs.map (hourContrib name)).sum) :=
  perParticipant_apply cs name

/-- C3 (code bug): when the day-archive directory is absent,
`push_a_month` fails with the typed `NotInitialized` error as the claim
says; but when the directory exists and is empty, the listing succeeds
with zero entries and the source immediately indexes `dir[0]`, an
out-of-bounds access that panics instead of returning the typed error. -/
theorem claim_C3_push_empty (s : Store) :
    (s.workingDir = none → pushAMonth s = .err .notInitialized s) ∧
    (s.workingDir = some [] → pushAMonth s = .crash) := by
  constructor
  · intro h
    unfold pushAMonth
    rw [h]
  · intro h
    unfold pushAMonth
    rw [h]

/-- C3 (witness): both branches on concrete stores. -/
theorem claim_C3_push_empty_witness :
    pushAMonth ⟨none, none, []⟩ = .err .notInitialized ⟨none, none, []⟩ ∧
    pushAMonth ⟨none, some [], []⟩ = .crash :=
  ⟨(claim_C3_push_empty ⟨none, none, []⟩).1 rfl,
   (claim_C3_push_empty ⟨none, some [], []⟩).2 rfl⟩

/-- C4: with an open session, finalize seals the record, writes it to the
day-archive area while `working.json` is still present, then deletes the
open record: afterwards no session is open, the archive gained exactly the
one appended fresh file, and a second finalize fails `NotInitialized`. -/
theorem claim_C4_finalize (s : Store) (dc : DayCommit) (endT : Time) (msg : String)
    (h : s.working = some dc) :
    commitADay endT msg s =
      .ok (finalizeRecord dc endT msg)
        { (commitWrite endT msg dc s).2 with working := none } ∧
    (commitWrite endT msg dc s).2.working = some dc ∧
    (commitWrite endT msg dc s).2.entries =
      s.entries ++
        [(probe dc.date.day (s.entries.map Prod.fst), finalizeRecord dc endT msg)] ∧
    probe dc.date.day (s.entries.map Prod.fst) ∉ s.entries.map Prod.fst ∧
    (∀ s2, (commitADay endT msg s).state = some s2 →
      s2.working = none ∧
      ∀ endT2 msg2, commitADay endT2 msg2 s2 = .err .notInitialized s2) := by
  refine ⟨?_, ?_, ?_, ?_, ?_⟩
  · unfold commitADay
    rw [h]
  · simp only [commitWrite]
    exact h
  · simp [commitWrite, Store.entries]
  · exact (probe_spec dc.date.day (s.entries.map Prod.fst)).1
  · intro s2 hs2
    unfold commitADay at hs2
    rw [h] at hs2
    simp only [Outcome.state, Option.some.injEq] at hs2
    subst hs2
    refine ⟨rfl, ?_⟩
    intro endT2 msg2
    unfold commitADay
    rfl

/-- C4 (witness): finalize evaluated on a concrete store with an open
session and an empty archive directory, then finalize again. -/
theorem claim_C4_finalize_witness :
    commitADay ⟨18, 0⟩ "closing" ⟨some sampleCommit, none, []⟩ =
      .ok (finalizeRecord sampleCommit ⟨18, 0⟩ "closing")
        ⟨none, some [(.base 10, finalizeRecord sampleCommit ⟨18, 0⟩ "closing")], []⟩ ∧
    commitADay ⟨19, 0⟩ "again"
        ⟨none, some [(.base 10, finalizeRecord sampleCommit ⟨18, 0⟩ "closing")], []⟩ =
      .err .notInitialized
        ⟨none, some [(.base 10, finalizeRecord sampleCommit ⟨18, 0⟩ "closing")], []⟩ := by
  have h := claim_C4_finalize ⟨some sampleCommit, none, []⟩ sampleCommit ⟨18, 0⟩ "closing" rfl
  constructor
  · rw [h.1]
    decide
  · decide

/-- C5: begin fails `AlreadyInitialized` and leaves the store untouched
when a session is already open, and otherwise persists exactly the record
`{date, startTime, endTime: none, note: none, participants: []}` as the
sole open record and returns it. -/
theorem claim_C5_begin (s : Store) (d : Date) (t : Time) :
    (∀ dc, s.working = some dc → createWorkingFile d t s = .err .alreadyInitialized s) ∧
    (s.working = none →
      createWorkingFile d t s =
        .ok ⟨d, t, none, none, []⟩ { s with working := some ⟨d, t, none, none, []⟩ }) := by
  constructor
  · intro dc h
    unfold createWorkingFile
    rw [h]
  · intro h
    unfold createWorkingFile
    rw [h]

/-- C5 (witness): both branches on concrete stores. -/
theorem claim_C5_begin_witness :
    createWorkingFile sampleDate ⟨9, 0⟩ initStore =
      .ok sampleCommit ⟨some sampleCommit, none, []⟩ ∧
    createWorkingFile sampleDate ⟨9, 0⟩ ⟨some sampleCommit, none, []⟩ =
      .err .alreadyInitialized ⟨some sampleCommit, none, []⟩ :=
  ⟨(claim_C5_begin initStore sampleDate ⟨9, 0⟩).2 rfl,
   (claim_C5_begin ⟨some sampleCommit, none, []⟩ sampleDate ⟨9, 0⟩).1 sampleCommit rfl⟩

/-- Sample open record for a second session whose date shares
day-of-month 10 with `sampleCommit` (different month). -/
def sampleCommitMay : DayCommit := ⟨⟨2018, 5, 10⟩, ⟨10, 0⟩, none, none, []⟩

/-- C6: the archive filename is derived from the day-of-month by linear
probing — `<day>.json` first, then `<day>_1.json`, `<day>_2.json`, … —
taking the first name unused in the directory (so no existing file is
ever overwritten); concretely, finalizing two sessions whose dates share
day-of-month 10 produces `10.json` and then `10_1.json`. -/
theorem claim_C6_probe (day : Nat) (used : List FName) :
    probe day used ∉ used ∧
    probe day used = nameAt day (probeIdx day used) ∧
    (∀ i, i < probeIdx day used → nameAt day i ∈ used) ∧
    probe 10 [] = .base 10 ∧
    probe 10 [.base 10] = .suffixed 10 1 ∧
    commitADay ⟨18, 0⟩ "first" ⟨some sampleCommit, none, []⟩ =
      .ok (finalizeRecord sampleCommit ⟨18, 0⟩ "first")
        ⟨none, some [(.base 10, finalizeRecord sampleCommit ⟨18, 0⟩ "first")], []⟩ ∧
    commitADay ⟨19, 0⟩ "second"
        ⟨some sampleCommitMay,
         some [(.base 10, finalizeRecord sampleCommit ⟨18, 0⟩ "first")], []⟩ =
      .ok (finalizeRecord sampleCommitMay ⟨19, 0⟩ "second")
        ⟨none,
         some [(.base 10, finalizeRecord sampleCommit ⟨18, 0⟩ "first"),
               (.suffixed 10 1, finalizeRecord sampleCommitMay ⟨19, 0⟩ "second")], []⟩ :=
  ⟨(probe_spec day used).1, rfl, (probe_spec day used).2,
   by decide, by decide, by decide, by decide⟩

/-- C8: read (`status`), mutate (`edit_working_commit`, used by add and
remove) and discard (`reset`) fail with `NotInitialized` exactly when no
open session exists, and succeed exactly when one does — as a pure
function of the current store state. -/
theorem claim_C8_not_initialized (s : Store) (f : DayCommit → DayCommit) :
    ((getWorkingCommit s).isNotInitErr = !s.working.isSome ∧
     (getWorkingCommit s).isOk = s.working.isSome) ∧
    ((editWorkingCommit f s).isNotInitErr = !s.working.isSome ∧
     (editWorkingCommit f s).isOk = s.working.isSome) ∧
    ((removeWorkingCommit s).isNotInitErr = !s.working.isSome ∧
     (removeWorkingCommit s).isOk = s.working.isSome) := by
  cases hw : s.working <;>
    simp [getWorkingCommit, editWorkingCommit, removeWorkingCommit,
      Outcome.isNotInitErr, Outcome.isOk, hw]

/-- C9: every store reachable from a fresh data root through the public
operations satisfies the invariant: the open record (when present) has
neither end time nor message, and every record in the day-archive area
has both. -/
theorem claim_C9_invariant (s : Store) (h : Reachable s) : StoreInv s := by
  induction h with
  | init =>
      constructor
      · intro dc hdc
        simp [initStore] at hdc
      · intro e he
        simp [Store.entries, initStore] at he
  | beginStep d t _ hst ih => exact inv_step_begin d t ih hst
  | addStep now names _ hst ih => exact inv_step_add now names ih hst
  | rmStep names _ hst ih => exact inv_step_rm names ih hst
  | commitStep endT msg _ hst ih => exact inv_step_commit endT msg ih hst
  | resetStep _ hst ih => exact inv_step_reset ih hst

/-- C9 (witness): the invariant holds at the fresh root and at the store
reached by one begin step. -/
theorem claim_C9_invariant_witness :
    StoreInv initStore ∧ StoreInv ⟨some sampleCommit, none, []⟩ :=
  ⟨claim_C9_invariant initStore Reachable.init,
   claim_C9_invariant ⟨some sampleCommit, none, []⟩
     (Reachable.beginStep sampleDate ⟨9, 0⟩ Reachable.init (by decide))⟩

/-- C10: converting a negative fractional-hour value to a `Time` (as done
when rendering per-participant hour totals) saturates both casts at zero
and yields 0:00. -/
theorem claim_C10_negative_to_zero (f : ℚ) (h : f < 0) :
    timeFromFrac f = ⟨0, 0⟩ := by
  have h1 : f ≤ 0 := le_of_lt h
  have h2 : f * 60 ≤ 0 := by nlinarith
  unfold timeFromFrac ratAsU32
  rw [if_pos h1, if_pos h2]

/-- C10 (witness): a concrete negative total renders as 0:00. -/
theorem claim_C10_negative_to_zero_witness :
    (-1 : ℚ) < 0 ∧ timeFromFrac (-1) = ⟨0, 0⟩ :=
  ⟨by norm_num, claim_C10_negative_to_zero (-1) (by norm_num)⟩

/-- C6 (witness): the probe evaluated on a directory already holding
`10.json`: the chosen name is `10_1.json`, which is unused. -/
theorem claim_C6_probe_witness :
    probe 10 [FName.base 10] ∉ [FName.base 10] ∧
    probe 10 [FName.base 10] = FName.suffixed 10 1 :=
  ⟨(claim_C6_probe 10 [FName.base 10]).1,
   (claim_C6_probe 10 [FName.base 10]).2.2.2.2.1⟩
